import Mathlib

/-!
Verification of the etymology-graph backend (`backend/database.py` together with
the views created by `backend/ingest.py` and `backend/enrich_definitions.py`).

The relational store is modelled as explicit lists of rows; DuckDB queries are
translated into list operations on those rows, and the Python request handlers
into total Lean functions.  Python `str`-or-`None` values become `Option String`
(with Python truthiness: `none` and `some ""` are falsy), Python dicts built by
comprehension become association lists with last-wins lookup, and the
`ORDER BY random() LIMIT 1` selection is modelled by an explicit choice index.
SQL `lower` / Python `str.lower` is modelled with the ASCII lowering
`Char.toLower` (all data used in the development is already lowercase outside
ASCII), and `LIKE lower(?) || chr(37)` is modelled as a prefix test, which
agrees with SQL for wildcard-free queries.
-/

/-- Row of the `words` table: `(word_ix, lang, lexeme, sense)`. -/
structure WordRow where
  ix : Int
  lang : String
  lexeme : String
  sense : Option String
deriving DecidableEq, Repr

/-- Row of the `links` table: `(type, source, target)`. -/
structure LinkRow where
  type : String
  source : Int
  target : Int
deriving DecidableEq, Repr

/-- Row of the `sequences` table: `(seq_ix, position, parent_ix)`.  The table
exists in the schema (see `tests/test_api.py`) but `database.py` issues no
query against it. -/
structure SeqRow where
  seq_ix : Int
  position : Int
  parent_ix : Int
deriving DecidableEq, Repr

/-- Row of the `language_families` table. -/
structure LangRow where
  code : String
  name : String
  family : String
  branch : String
deriving DecidableEq, Repr

/-- Row of the `v_definitions` view (one row per enriched lexeme). -/
structure DefRow where
  lexeme : String
  definition : Option String
deriving DecidableEq, Repr

/-- The read-only relational store.  `defs_view = none` models the situation
in which the `v_definitions` view does not exist, so that any query against it
raises. -/
structure Store where
  words : List WordRow
  links : List LinkRow
  lang_families : List LangRow
  sequences : List SeqRow
  defs_view : Option (List DefRow)
deriving Repr

/-- Node dictionary produced by `_build_node`: `sense`, `family` and `branch`
are conditionally present keys. -/
structure DisplayNode where
  id : String
  lexeme : String
  lang : String
  sense : Option String
  lang_name : String
  family : Option String
  branch : Option String
deriving DecidableEq, Repr

/-- Edge dictionary appended by `fetch_etymology`; the code stores only the
`source` and `target` keys. -/
structure GEdge where
  source : String
  target : String
deriving DecidableEq, Repr

/-- The graph payload `{nodes: ..., edges: ...}`. -/
structure Graph where
  nodes : List DisplayNode
  edges : List GEdge
deriving DecidableEq, Repr

/-- One row of a search response: `{word, sense?}` (the code stores `None`
for a missing sense). -/
structure SearchResult where
  word : String
  sense : Option String
deriving DecidableEq, Repr

/-! String helpers (executable models of `lower`, `strip` and comparison). -/

/-- Model of Python `str.lower()` and SQL `lower()` via ASCII lowering. -/
def str_lower (s : String) : String := ⟨s.data.map Char.toLower⟩

/-- Drop leading and trailing double-quote characters, as `str.strip` with a
double-quote argument does. -/
def strip_quotes (s : String) : String :=
  ⟨((s.data.dropWhile (fun c => c == '"')).reverse.dropWhile (fun c => c == '"')).reverse⟩

/-- Character-list prefix test, used to model the SQL pattern
`lower(lexeme) LIKE lower(query) || percent` for wildcard-free queries. -/
def chars_lead : List Char → List Char → Bool
  | [], _ => true
  | _ :: _, [] => false
  | a :: as, b :: bs => a == b && chars_lead as bs

/-- Whether `q` is a prefix of `s` (both lowered by the callers). -/
def str_starts (s q : String) : Bool := chars_lead q.data s.data

/-- Binary (codepoint) order on character lists, the collation DuckDB uses
for `ORDER BY` on `VARCHAR`. -/
def chars_lt : List Char → List Char → Bool
  | [], [] => false
  | [], _ :: _ => true
  | _ :: _, [] => false
  | a :: as, b :: bs => decide (a < b) || (a == b && chars_lt as bs)

/-- String order used for the `ORDER BY w.lexeme` sort key. -/
def str_lt (a b : String) : Bool := chars_lt a.data b.data

/-! Association-list model of Python dicts (insertion ordered, last wins). -/

/-- Python `key in dict`. -/
def dictContains {α : Type} (l : List (String × α)) (k : String) : Bool :=
  l.any (fun p => p.1 == k)

/-- Python `dict[key]` for a dict built from a list of pairs where a later
pair with the same key overwrites an earlier one. -/
def lookupLast {α : Type} : List (String × α) → String → Option α
  | [], _ => none
  | p :: rest, k =>
    match lookupLast rest k with
    | some v => some v
    | none => if p.1 == k then some p.2 else none

/-- Python `dict.setdefault` on an insertion-ordered association list. -/
def setdefault {α : Type} (m : List (Int × α)) (k : Int) (v : α) : List (Int × α) :=
  if m.any (fun p => p.1 == k) then m else m ++ [(k, v)]

/-! Embedding of `backend/database.py`. -/

/-- Embeds `_normalize_depth`. -/
def normalize_depth (depth : Int) : Int := max depth 0

/-- Embeds `_make_node_id`. -/
def make_node_id (lexeme lang : String) : String := lexeme ++ "|" ++ lang

/-- Value stored for one `v_definitions` row by `_get_definitions_for_lexemes`:
`row[1].strip(quote) if row[1] else None`. -/
def defs_val (d : String) : Option String :=
  if d == "" then none else some (strip_quotes d)

/-- Value of `defs_val` lifted over the optional definition column. -/
def defs_opt : Option String → Option String
  | some d => defs_val d
  | none => none

/-- The dict built by the query body of `_get_definitions_for_lexemes`:
rows of `v_definitions` whose lowered lexeme is among the requested ones and
whose definition is not NULL, keyed by lowered lexeme. -/
def mk_defs (rows : List DefRow) (lexemes : List String) : List (String × Option String) :=
  (rows.filter (fun r =>
      (lexemes.map str_lower).contains (str_lower r.lexeme) && r.definition.isSome)).map
    (fun r => (str_lower r.lexeme, defs_opt r.definition))

/-- Embeds `_get_definitions_for_lexemes`: empty dict for an empty lexeme list
and for any exception from the query (in particular a missing `v_definitions`
view, modelled by `defs_view = none`). -/
def get_definitions_for_lexemes (store : Store) (lexemes : List String) :
    List (String × Option String) :=
  if lexemes.isEmpty then []
  else
    match store.defs_view with
    | none => []
    | some rows => mk_defs rows lexemes

/-- Lookup in the dict built by `_get_language_families`. -/
def lang_lookup (rows : List LangRow) (code : String) : Option LangRow :=
  lookupLast (rows.map (fun r => (r.code, r))) code

/-- Embeds `_build_node`. -/
def build_node (lexeme lang : String) (sense : Option String)
    (lf : List LangRow) (enriched : List (String × Option String)) : DisplayNode :=
  let definition : Option String :=
    if !enriched.isEmpty && lang == "en" && dictContains enriched (str_lower lexeme) then
      match lookupLast enriched (str_lower lexeme) with
      | some v => v
      | none => none
    else
      match sense with
      | some s => if s != "" && str_lower s != str_lower lexeme then some s else none
      | none => none
  let sense_field : Option String :=
    match definition with
    | some d => if d != "" then some d else none
    | none => none
  match lang_lookup lf lang with
  | some r => ⟨make_node_id lexeme lang, lexeme, lang, sense_field, r.name, some r.family, some r.branch⟩
  | none => ⟨make_node_id lexeme lang, lexeme, lang, sense_field, lang, none, none⟩

/-- Number of outgoing link rows of an entry, the `COUNT(l.target)` of the
start-word query. -/
def outdeg (links : List LinkRow) (ix : Int) : Nat :=
  (links.filter (fun l => l.source == ix)).length

/-- Sort key of the start-word query: English first, most links first
(encoded by negation), then ascending `word_ix`. -/
def start_key (links : List LinkRow) (w : WordRow) : Nat × Int × Int :=
  ((if w.lang == "en" then 0 else 1), -(outdeg links w.ix : Int), w.ix)

/-- Strict lexicographic order on start keys. -/
def key_lt (a b : Nat × Int × Int) : Bool :=
  decide (a.1 < b.1) ||
    (a.1 == b.1 && (decide (a.2.1 < b.2.1) ||
      (a.2.1 == b.2.1 && decide (a.2.2 < b.2.2))))

/-- Reflexive lexicographic order on start keys. -/
def key_le (a b : Nat × Int × Int) : Bool :=
  decide (a.1 < b.1) ||
    (a.1 == b.1 && (decide (a.2.1 < b.2.1) ||
      (a.2.1 == b.2.1 && decide (a.2.2 ≤ b.2.2))))

/-- One step of selecting the minimal candidate under `key_lt` (the row an
`ORDER BY ... LIMIT 1` returns). -/
def pick_start (links : List LinkRow) (acc : Option WordRow) (w : WordRow) : Option WordRow :=
  match acc with
  | none => some w
  | some b => if key_lt (start_key links w) (start_key links b) then some w else some b

/-- Embeds the start-word query of `fetch_etymology`: case-insensitive exact
match on the lexeme, ordered by English first, link count descending,
`word_ix` ascending, `LIMIT 1`. -/
def find_start_word (store : Store) (word : String) : Option WordRow :=
  (store.words.filter (fun w => str_lower w.lexeme == str_lower word)).foldl
    (pick_start store.links) none

/-- Anchor rows of the recursive CTE: `SELECT source, target, 1 FROM links
WHERE source = start`. -/
def cte_seed (links : List LinkRow) (startIx : Int) : List (Int × Int) :=
  (links.filter (fun l => l.source == startIx)).map (fun l => (l.source, l.target))

/-- Recursive rows of the CTE: from each row `(c, p)` of the previous level,
every link with `source = p` yields `(l.source, l.target)`. -/
def cte_step (links : List LinkRow) (rows : List (Int × Int)) : List (Int × Int) :=
  rows.flatMap (fun cp =>
    (links.filter (fun l => l.source == cp.2)).map (fun l => (l.source, l.target)))

/-- Level `k` (0-based; SQL `lvl = k + 1`) of the recursive traversal. -/
def cte_levels (links : List LinkRow) (startIx : Int) : Nat → List (Int × Int)
  | 0 => cte_seed links startIx
  | k + 1 => cte_step links (cte_levels links startIx k)

/-- All `(child_ix, parent_ix)` rows the CTE produces with the bound
`lvl < depth`, i.e. levels `1 .. depth`. -/
def traversal_rows (links : List LinkRow) (startIx : Int) (depth : Nat) : List (Int × Int) :=
  (List.range depth).flatMap (cte_levels links startIx)

/-- The final join of the traversal against `words` for both endpoints; rows
whose child or parent index has no `words` row (for example a negative
sequence reference) are dropped. -/
def record_rows (words : List WordRow) (rows : List (Int × Int)) : List (WordRow × WordRow) :=
  rows.flatMap (fun cp =>
    (words.filter (fun w => w.ix == cp.1)).flatMap (fun c =>
      (words.filter (fun w => w.ix == cp.2)).map (fun p => (c, p))))

/-- Raw node data collected per `word_ix`: `(lexeme, lang, sense)`. -/
abbrev RawEntry := Int × String × String × Option String

/-- Mutable state of the Python record loop: the `raw_nodes` dict and the
deduplicated `edges` list. -/
structure FoldState where
  raw_nodes : List RawEntry
  edges : List GEdge
deriving DecidableEq, Repr

/-- Whether an edge key is already in `seen_edges` (the set holds exactly the
keys of the accumulated edges). -/
def edge_seen (edges : List GEdge) (s t : String) : Bool :=
  edges.any (fun e => e.source == s && e.target == t)

/-- One iteration of the record loop of `fetch_etymology`: `setdefault` both
endpoints, then append the edge unless it is a collapsed self-loop or was
already seen. -/
def process_step (st : FoldState) (r : WordRow × WordRow) : FoldState :=
  let c := r.1
  let p := r.2
  let rn := setdefault (setdefault st.raw_nodes c.ix (c.lexeme, c.lang, c.sense))
    p.ix (p.lexeme, p.lang, p.sense)
  let cid := make_node_id c.lexeme c.lang
  let pid := make_node_id p.lexeme p.lang
  if cid != pid && !edge_seen st.edges cid pid then
    ⟨rn, st.edges ++ [⟨cid, pid⟩]⟩
  else
    ⟨rn, st.edges⟩

/-- The `raw_nodes` dict before the loop: only the start entry. -/
def init_raw (start : WordRow) : List RawEntry :=
  [(start.ix, (start.lexeme, start.lang, start.sense))]

/-- State after the whole record loop for a traversal of `n` levels. -/
def traversal_state (store : Store) (start : WordRow) (n : Nat) : FoldState :=
  (record_rows store.words (traversal_rows store.links start.ix n)).foldl
    process_step ⟨init_raw start, []⟩

/-- State of `fetch_etymology` after the `if depth > 0` block. -/
def etymology_state (store : Store) (start : WordRow) (depth : Int) : FoldState :=
  if depth > 0 then traversal_state store start depth.toNat
  else ⟨init_raw start, []⟩

/-- The comprehension `[lex for lex, lang, _ in raw_nodes.values() if lang == "en"]`. -/
def english_lexemes_of (raw : List RawEntry) : List String :=
  (raw.map (fun p => p.2)).filterMap (fun v => if v.2.1 == "en" then some v.1 else none)

/-- The final node list: one `_build_node` result per `raw_nodes` entry, with
definitions fetched for the English lexemes of this graph only. -/
def nodes_of_state (store : Store) (st : FoldState) : List DisplayNode :=
  let enriched := get_definitions_for_lexemes store (english_lexemes_of st.raw_nodes)
  st.raw_nodes.map (fun p => build_node p.2.1 p.2.2.1 p.2.2.2 store.lang_families enriched)

/-- Embeds `fetch_etymology`: `None` for an empty word, an unmatched word, or
a traversal that produced no edges. -/
def fetch_etymology (store : Store) (word : String) (depth : Int) : Option Graph :=
  if word == "" then none
  else
    match find_start_word store word with
    | none => none
    | some start =>
      let st := etymology_state store start (normalize_depth depth)
      let nodes := nodes_of_state store st
      if st.edges.isEmpty then none else some ⟨nodes, st.edges⟩

/-- Node list of an optional graph response (empty for `None`). -/
def graph_nodes : Option Graph → List DisplayNode
  | none => []
  | some g => g.nodes

/-- Edge list of an optional graph response (empty for `None`). -/
def graph_edges : Option Graph → List GEdge
  | none => []
  | some g => g.edges

/-! Embedding of the curated view of `backend/ingest.py` and of the search
and random-word queries. -/

/-- Macro `is_phrase`: the lexeme contains a space. -/
def is_phrase (lexeme : String) : Bool := lexeme.data.any (fun c => c == ' ')

/-- Macro `is_proper_noun`: the lexeme matches the unanchored-free pattern of
an uppercase ASCII letter followed by a lowercase ASCII letter at the start. -/
def is_proper_noun (lexeme : String) : Bool :=
  match lexeme.data with
  | c1 :: c2 :: _ => ('A' ≤ c1 && c1 ≤ 'Z') && ('a' ≤ c2 && c2 ≤ 'z')
  | _ => false

/-- Macro `is_clean_word`. -/
def is_clean_word (lexeme : String) : Bool := !is_phrase lexeme && !is_proper_noun lexeme

/-- Macro `has_etymology`: the entry has at least one outgoing link row. -/
def has_etymology (links : List LinkRow) (ix : Int) : Bool :=
  links.any (fun l => l.source == ix)

/-- The `v_english_curated` view of `ingest.py`: distinct English word rows
that are clean and have at least one outgoing link. -/
def v_english_curated (store : Store) : List WordRow :=
  (store.words.filter (fun w =>
    w.lang == "en" && is_clean_word w.lexeme && has_etymology store.links w.ix)).eraseDups

/-- Embeds `fetch_random_word`; the row `ORDER BY random() LIMIT 1` returns is
modelled by an arbitrary choice index into the curated view.  The function
takes no compound-related argument, mirroring its signature in the code. -/
def fetch_random_word (store : Store) (choice : Nat) : Option String :=
  let curated := v_english_curated store
  match curated[choice % curated.length]? with
  | some w => some w.lexeme
  | none => none

/-- Embeds `_is_useful_sense`. -/
def is_useful_sense (sense : Option String) (lexeme : String) : Bool :=
  match sense with
  | none => false
  | some s =>
    if s == "" then false
    else
      let sl := strip_quotes (str_lower s)
      sl != "" && sl != "none" && sl != str_lower lexeme

/-- Python `x.strip(quote) if x else None` for an optional string. -/
def py_display (s : Option String) : Option String :=
  match s with
  | some v => if v == "" then none else some (strip_quotes v)
  | none => none

/-- One row of the search query result:
`(word_ix, lexeme, sense, definition)`. -/
structure SQLSearchRow where
  word_ix : Int
  lexeme : String
  sense : Option String
  definition : Option String
deriving DecidableEq, Repr

/-- Sort order of the search query: exact case-insensitive match first, then
lexeme length, then lexeme, then `word_ix`. -/
def row_le (q : String) (a b : SQLSearchRow) : Bool :=
  let ea : Nat := if str_lower a.lexeme == str_lower q then 0 else 1
  let eb : Nat := if str_lower b.lexeme == str_lower q then 0 else 1
  decide (ea < eb) ||
    (ea == eb && (decide (a.lexeme.length < b.lexeme.length) ||
      (a.lexeme.length == b.lexeme.length && (str_lt a.lexeme b.lexeme ||
        (a.lexeme == b.lexeme && decide (a.word_ix ≤ b.word_ix))))))

/-- Insertion into a list sorted by `row_le`. -/
def insert_row (q : String) (x : SQLSearchRow) : List SQLSearchRow → List SQLSearchRow
  | [] => [x]
  | y :: ys => if row_le q x y then x :: y :: ys else y :: insert_row q x ys

/-- Insertion sort by the `ORDER BY` key of the search query. -/
def sort_rows (q : String) (l : List SQLSearchRow) : List SQLSearchRow :=
  l.foldr (insert_row q) []

/-- The SQL rows of `search_words`: curated English entries left-joined with
`v_definitions` on the lowered lexeme, filtered to lexemes starting with the
lowered query, and sorted. -/
def search_sql_rows (store : Store) (defs : List DefRow) (query : String) :
    List SQLSearchRow :=
  let joined := (v_english_curated store).flatMap (fun w =>
    let ds := defs.filter (fun dr => str_lower dr.lexeme == str_lower w.lexeme)
    if ds.isEmpty then [⟨w.ix, w.lexeme, w.sense, none⟩]
    else ds.map (fun dr => ⟨w.ix, w.lexeme, w.sense, dr.definition⟩))
  sort_rows query (joined.filter (fun r => str_starts (str_lower r.lexeme) (str_lower query)))

/-- Append one `(sense, definition)` pair to the group of its lexeme,
creating the group at the end on first sight (Python dict insertion order). -/
def append_group (acc : List (String × List (Option String × Option String)))
    (k : String) (v : Option String × Option String) :
    List (String × List (Option String × Option String)) :=
  if acc.any (fun g => g.1 == k) then
    acc.map (fun g => if g.1 == k then (g.1, g.2 ++ [v]) else g)
  else acc ++ [(k, [v])]

/-- The `seen_lexemes` grouping loop of `search_words`. -/
def group_lexemes (rows : List SQLSearchRow) :
    List (String × List (Option String × Option String)) :=
  rows.foldl (fun acc r => append_group acc r.lexeme (r.sense, r.definition)) []

/-- Rows emitted for one lexeme group: one row per entry with a useful sense,
or a single row with the first entry's external definition as fallback. -/
def group_rows (lexeme : String) (entries : List (Option String × Option String)) :
    List SearchResult :=
  let useful := entries.filter (fun e => is_useful_sense e.1 lexeme)
  if !useful.isEmpty then useful.map (fun e => ⟨lexeme, py_display e.1⟩)
  else [⟨lexeme, py_display (entries.headD (none, none)).2⟩]

/-- The emission loop of `search_words`, including the early break once the
accumulated results reach the limit. -/
def emit_fold (limit : Nat) (acc : List SearchResult) :
    List (String × List (Option String × Option String)) → List SearchResult
  | [] => acc
  | g :: gs =>
    let acc' := acc ++ group_rows g.1 g.2
    if limit ≤ acc'.length then acc' else emit_fold limit acc' gs

/-- Embeds `search_words`: empty result for short queries (checked before any
query runs); `none` models the exception raised when the `v_definitions` view
is absent; otherwise group, emit and truncate to the limit. -/
def search_words (store : Store) (query : String) (limit : Nat) :
    Option (List SearchResult) :=
  if query == "" || query.length < 2 then some []
  else
    match store.defs_view with
    | none => none
    | some defs =>
      some ((emit_fold limit [] (group_lexemes (search_sql_rows store defs query))).take limit)

/-! Concrete stores used to evaluate the code on the scenarios of the spec
and of `tests/test_api.py`. -/

/-- Store with a single English entry that has no outgoing links. -/
def lonewordStore : Store :=
  ⟨[⟨4, "en", "loneword", some "a word with no etymology links"⟩], [], [], [], some []⟩

/-- Store in which a null-sense morpheme sits on the path to a garbage word:
alpha links to a null-sense entry which links on to garbage1. -/
def morphemeStore : Store :=
  ⟨[⟨1, "en", "alpha", some "first"⟩, ⟨2, "en", "-er", none⟩,
    ⟨3, "en", "garbage1", some "unrelated word 1"⟩],
   [⟨"der", 1, 2⟩, ⟨"der", 2, 3⟩], [], [], some []⟩

/-- The compound-word store of `tests/test_api.py`: uplander links to the
sequence with id -1 whose parents are upland and the null-sense morpheme. -/
def uplanderStore : Store :=
  ⟨[⟨300, "en", "uplander", some "highland dweller"⟩,
    ⟨301, "en", "upland", some "elevated land"⟩,
    ⟨302, "en", "-er", none⟩,
    ⟨303, "en", "garbage1", some "unrelated word 1"⟩,
    ⟨304, "en", "garbage2", some "unrelated word 2"⟩],
   [⟨"der", 300, -1⟩, ⟨"der", 302, 303⟩, ⟨"der", 302, 304⟩],
   [], [⟨-1, 0, 301⟩, ⟨-1, 1, 302⟩], some []⟩

/-- Store in which the root links to two homograph targets sharing the pair
(beta, de) under distinct ids. -/
def homographStore : Store :=
  ⟨[⟨1, "en", "alpha", some "first"⟩, ⟨2, "de", "beta", some "x"⟩,
    ⟨3, "de", "beta", some "y"⟩],
   [⟨"der", 1, 2⟩, ⟨"der", 1, 3⟩], [], [], some []⟩

/-- The twin store of `tests/test_api.py`: two English homographs of twin with
one and three outgoing links. -/
def twinStore : Store :=
  ⟨[⟨100, "en", "twin", some "twin sense A"⟩,
    ⟨101, "en", "twin", some "twin sense B"⟩,
    ⟨102, "proto-germanic", "twinjaz", some "twin"⟩,
    ⟨103, "proto-indo-european", "dwóh₁", some "two"⟩,
    ⟨104, "la", "geminus", some "twin"⟩],
   [⟨"inh", 100, 102⟩, ⟨"inh", 101, 102⟩, ⟨"cog", 101, 103⟩,
    ⟨"cog", 101, 104⟩, ⟨"inh", 102, 103⟩], [], [], some []⟩

/-- Store with two curated homograph entries of dog carrying the identical
useful sense. -/
def dogStore : Store :=
  ⟨[⟨1, "en", "dog", some "canine"⟩, ⟨2, "en", "dog", some "canine"⟩],
   [⟨"der", 1, 3⟩, ⟨"der", 2, 3⟩], [], [], some []⟩

/-- The inherited chain of the spec scenario: mother, its Proto-Germanic
ancestor and the Proto-Indo-European root, with an enriched definition for
mother. -/
def motherStore : Store :=
  ⟨[⟨1, "en", "mother", some "mother"⟩,
    ⟨2, "proto-germanic", "mōdēr", some "mother"⟩,
    ⟨3, "proto-indo-european", "méh₂tēr", some "mother"⟩],
   [⟨"inh", 1, 2⟩, ⟨"inh", 2, 3⟩],
   [⟨"en", "English", "Indo-European", "Germanic"⟩],
   [], some [⟨"mother", some "A female parent"⟩]⟩

/-- Store whose single curated English word links only into a compound
sequence (no positive link target). -/
def compoundOnlyStore : Store :=
  ⟨[⟨300, "en", "upl", some "x"⟩], [⟨"der", 300, -1⟩], [],
   [⟨-1, 0, 301⟩], some []⟩

/-- Invariant of the edge list: deduplicated, no collapsed self-loops. -/
def edge_ok (es : List GEdge) : Prop :=
  es.Nodup ∧ ∀ e ∈ es, e.source ≠ e.target

/-- Entries accumulated so far for a lexeme (empty when the lexeme has no
group yet). -/
def group_entry (acc : List (String × List (Option String × Option String)))
    (k : String) : List (Option String × Option String) :=
  match acc.find? (fun g => g.1 == k) with
  | some g => g.2
  | none => []

/-! Order lemmas for the start-word sort key. -/

/-- The reflexive key order is reflexive. -/
theorem key_le_refl (a : Nat × Int × Int) : key_le a a = true := by
  obtain ⟨a1, a2, a3⟩ := a
  simp [key_le]

/-- The strict key order implies the reflexive one. -/
theorem key_lt_le (a b : Nat × Int × Int) (h : key_lt a b = true) : key_le a b = true := by
  obtain ⟨a1, a2, a3⟩ := a
  obtain ⟨b1, b2, b3⟩ := b
  simp [key_lt] at h
  simp [key_le]
  omega

/-- The reflexive key order is transitive. -/
theorem key_le_trans (a b c : Nat × Int × Int) (h1 : key_le a b = true)
    (h2 : key_le b c = true) : key_le a c = true := by
  obtain ⟨a1, a2, a3⟩ := a
  obtain ⟨b1, b2, b3⟩ := b
  obtain ⟨c1, c2, c3⟩ := c
  simp [key_le] at h1 h2
  simp [key_le]
  omega

/-- When the strict order fails, the reflexive order holds the other way. -/
theorem key_not_lt (a b : Nat × Int × Int) (h : key_lt a b = false) :
    key_le b a = true := by
  obtain ⟨a1, a2, a3⟩ := a
  obtain ⟨b1, b2, b3⟩ := b
  simp [key_lt] at h
  simp [key_le]
  omega

/-- Folding `pick_start` returns a candidate that is minimal under `key_le`
among the seed and everything folded over. -/
theorem pick_start_min (links : List LinkRow) (l : List WordRow) :
    ∀ (b e : WordRow), l.foldl (pick_start links) (some b) = some e →
      (e = b ∨ e ∈ l) ∧ key_le (start_key links e) (start_key links b) = true ∧
        ∀ w ∈ l, key_le (start_key links e) (start_key links w) = true := by
  induction l with
  | nil =>
    intro b e h
    simp only [List.foldl_nil, Option.some.injEq] at h
    subst h
    exact ⟨Or.inl rfl, key_le_refl _, by simp⟩
  | cons w l ih =>
    intro b e h
    simp only [List.foldl_cons] at h
    by_cases hlt : key_lt (start_key links w) (start_key links b) = true
    · have hstep : pick_start links (some b) w = some w := by
        simp [pick_start, hlt]
      rw [hstep] at h
      obtain ⟨hmem, hle, hall⟩ := ih w e h
      refine ⟨?_, ?_, ?_⟩
      · rcases hmem with rfl | hmem
        · exact Or.inr (List.mem_cons_self _ _)
        · exact Or.inr (List.mem_cons_of_mem _ hmem)
      · exact key_le_trans _ _ _ hle (key_lt_le _ _ hlt)
      · intro x hx
        rcases List.mem_cons.mp hx with rfl | hx
        · exact hle
        · exact hall x hx
    · have hstep : pick_start links (some b) w = some b := by
        simp [pick_start, hlt]
      rw [hstep] at h
      obtain ⟨hmem, hle, hall⟩ := ih b e h
      refine ⟨?_, hle, ?_⟩
      · rcases hmem with rfl | hmem
        · exact Or.inl rfl
        · exact Or.inr (List.mem_cons_of_mem _ hmem)
      · intro x hx
        rcases List.mem_cons.mp hx with rfl | hx
        · exact key_le_trans _ _ _ hle
            (key_not_lt _ _ (Bool.eq_false_iff.mpr hlt))
        · exact hall x hx

/-- A `key_le` fact between entries of the same language bounds the link
counts. -/
theorem key_le_outdeg (n : Nat) (o1 o2 : Nat) (i1 i2 : Int)
    (h : key_le (n, -(o1 : Int), i1) (n, -(o2 : Int), i2) = true) : o2 ≤ o1 := by
  simp [key_le] at h
  omega

/-- Claim C5: among all entries whose lexeme matches the query
case-insensitively, the start-word query returns a matching entry whose sort
key (English first, then most outgoing links, then smallest id) is minimal;
in particular no matching entry of the same language has more outgoing
links. -/
theorem find_start_word_min (store : Store) (q : String) (e : WordRow)
    (h : find_start_word store q = some e) :
    e ∈ store.words ∧ str_lower e.lexeme = str_lower q ∧
      (∀ w ∈ store.words, str_lower w.lexeme = str_lower q →
        key_le (start_key store.links e) (start_key store.links w) = true) ∧
      ∀ w ∈ store.words, str_lower w.lexeme = str_lower q → w.lang = e.lang →
        outdeg store.links w.ix ≤ outdeg store.links e.ix := by
  unfold find_start_word at h
  have hmin : ∀ w ∈ store.words, str_lower w.lexeme = str_lower q →
      key_le (start_key store.links e) (start_key store.links w) = true := by
    intro w hw hwq
    have hwc : w ∈ store.words.filter (fun w => str_lower w.lexeme == str_lower q) := by
      rw [List.mem_filter]
      exact ⟨hw, beq_iff_eq.mpr hwq⟩
    rcases hc : store.words.filter (fun w => str_lower w.lexeme == str_lower q) with
      _ | ⟨c, cs⟩
    · rw [hc] at hwc; cases hwc
    · rw [hc] at h hwc
      simp only [List.foldl_cons, pick_start] at h
      obtain ⟨_, hle, hall⟩ := pick_start_min store.links cs c e h
      rcases List.mem_cons.mp hwc with rfl | hwc
      · exact hle
      · exact hall w hwc
  have hec : e ∈ store.words.filter (fun w => str_lower w.lexeme == str_lower q) := by
    rcases hc : store.words.filter (fun w => str_lower w.lexeme == str_lower q) with
      _ | ⟨c, cs⟩
    · rw [hc] at h; cases h
    · rw [hc] at h
      simp only [List.foldl_cons, pick_start] at h
      obtain ⟨hmem, _, _⟩ := pick_start_min store.links cs c e h
      rw [hc]
      rcases hmem with rfl | hmem
      · exact List.mem_cons_self _ _
      · exact List.mem_cons_of_mem _ hmem
  obtain ⟨hew, heq⟩ := List.mem_filter.mp hec
  refine ⟨hew, beq_iff_eq.mp heq, hmin, ?_⟩
  intro w hw hwq hlang
  have hle := hmin w hw hwq
  unfold start_key at hle
  rw [hlang] at hle
  exact key_le_outdeg _ _ _ _ _ hle

/-- Witness for C5 on the twin store of the test suite: the one-link twin
homograph has no more links than the selected three-link entry. -/
theorem find_start_word_min_witness :
    outdeg twinStore.links 100 ≤ outdeg twinStore.links 101 := by
  have h := find_start_word_min twinStore "twin"
    ⟨101, "en", "twin", some "twin sense B"⟩ (by decide)
  exact h.2.2.2 ⟨100, "en", "twin", some "twin sense A"⟩ (by decide) (by decide) rfl

/-- Claim C1: a stored entry with zero outgoing links resolves successfully,
yet `fetch_etymology` returns `None` (surfaced by `get_graph` as a 404), so
the no-etymology case is not distinguished from an unknown word. -/
theorem fetch_etymology_loneword_not_found :
    find_start_word lonewordStore "loneword"
        = some ⟨4, "en", "loneword", some "a word with no etymology links"⟩
    ∧ fetch_etymology lonewordStore "loneword" 5 = none := by
  constructor
  · decide
  · decide

/-- Claim C2: the recursive traversal applies no sense-based curation: the
outgoing links of the null-sense morpheme on the path are followed, so the
garbage target appears both as a node and as an edge endpoint. -/
theorem fetch_etymology_follows_null_sense_links :
    ((graph_nodes (fetch_etymology morphemeStore "alpha" 5)).map
        (fun n => n.lexeme)).contains "garbage1" = true
    ∧ (graph_edges (fetch_etymology morphemeStore "alpha" 5)).contains
        ⟨"-er|en", "garbage1|en"⟩ = true := by
  constructor
  · decide
  · decide

/-- Claim C3: the traversal performs no sequence expansion: the word whose
only link targets the negative sequence id resolves, but the join against
`words` drops the negative target, no edge survives, and the whole request
degenerates to `None`. -/
theorem fetch_etymology_ignores_sequences :
    find_start_word uplanderStore "uplander"
        = some ⟨300, "en", "uplander", some "highland dweller"⟩
    ∧ fetch_etymology uplanderStore "uplander" 5 = none := by
  constructor
  · decide
  · decide

/-- Claim C7: on the inherited chain of the spec scenario the traversal at
depth 5 yields exactly 3 nodes and exactly 2 edges, but the edge records
carry only `source` and `target` fields: no `type` and no `compound` flag
exists on any edge. -/
theorem fetch_etymology_mother_chain :
    (graph_nodes (fetch_etymology motherStore "mother" 5)).length = 3
    ∧ graph_edges (fetch_etymology motherStore "mother" 5)
        = [⟨"mother|en", "mōdēr|proto-germanic"⟩,
           ⟨"mōdēr|proto-germanic", "méh₂tēr|proto-indo-european"⟩] := by
  constructor
  · decide
  · decide

/-- Counterexample to claim C4: after traversing the homograph store, two
nodes with the identical collapsed id appear in the node list, so node
identity in the output is not the pair (lexeme, language). -/
theorem fetch_etymology_homograph_nodes_cex :
    ¬ (((graph_nodes (fetch_etymology homographStore "alpha" 5)).filter
        (fun n => n.id == make_node_id "beta" "de")).length ≤ 1) := by
  decide

/-- Counterexample to claim C6: two homograph entries of dog carry the same
single useful sense, yet the search result contains that row twice instead
of once per distinct useful sense. -/
theorem search_words_duplicate_sense_cex :
    search_words dogStore "dog" 10
        = some [⟨"dog", some "canine"⟩, ⟨"dog", some "canine"⟩]
    ∧ ¬ ((((search_words dogStore "dog" 10).getD []).filter
        (fun r => r.word == "dog")).length = 1) := by
  constructor
  · decide
  · decide

/-- Claim C9: `fetch_random_word` accepts no compound-related argument and
applies no restriction to entries with a direct-word link: on a store whose
only curated word links exclusively into a compound sequence, every possible
random choice still returns that word. -/
theorem fetch_random_word_ignores_compound (choice : Nat) :
    fetch_random_word compoundOnlyStore choice = some "upl" := by
  have hcur : v_english_curated compoundOnlyStore = [⟨300, "en", "upl", some "x"⟩] := by
    decide
  unfold fetch_random_word
  rw [hcur]
  simp [Nat.mod_one]

/-- Claim C10: the definitions lookup is best-effort: it returns the empty
dict for an empty lexeme list and when the `v_definitions` view is absent
(the query raises), and a graph request against a store without the view
returns exactly what it returns when the view exists but is empty. -/
theorem get_definitions_best_effort (store : Store) (lexemes : List String)
    (word : String) (depth : Int) :
    get_definitions_for_lexemes { store with defs_view := none } lexemes = []
    ∧ get_definitions_for_lexemes store [] = []
    ∧ fetch_etymology { store with defs_view := none } word depth
        = fetch_etymology { store with defs_view := some [] } word depth := by
  obtain ⟨ws, ls, lf, sq, dv⟩ := store
  refine ⟨?_, rfl, ?_⟩
  · cases lexemes <;> rfl
  · have hgd : ∀ L, get_definitions_for_lexemes ⟨ws, ls, lf, sq, none⟩ L
        = get_definitions_for_lexemes ⟨ws, ls, lf, sq, some []⟩ L := by
      intro L
      cases L <;> rfl
    have hnodes : ∀ st, nodes_of_state ⟨ws, ls, lf, sq, none⟩ st
        = nodes_of_state ⟨ws, ls, lf, sq, some []⟩ st := by
      intro st
      unfold nodes_of_state
      rw [hgd]
    have hfind : find_start_word ⟨ws, ls, lf, sq, none⟩ word
        = find_start_word ⟨ws, ls, lf, sq, some []⟩ word := rfl
    have hstate : ∀ s d, etymology_state ⟨ws, ls, lf, sq, none⟩ s d
        = etymology_state ⟨ws, ls, lf, sq, some []⟩ s d := fun _ _ => rfl
    unfold fetch_etymology
    rw [hfind]
    cases hf : find_start_word ⟨ws, ls, lf, sq, some []⟩ word with
    | none => rfl
    | some start =>
      simp only [hstate, hnodes]

/-! Structural invariants of the traversal state. -/

/-- Fields of a built node are the data it was built from, and its id is the
collapsed key of its lexeme and language. -/
theorem build_node_fields (lexeme lang : String) (sense : Option String)
    (lf : List LangRow) (enriched : List (String × Option String)) :
    (build_node lexeme lang sense lf enriched).id = make_node_id lexeme lang
    ∧ (build_node lexeme lang sense lf enriched).lexeme = lexeme
    ∧ (build_node lexeme lang sense lf enriched).lang = lang := by
  unfold build_node
  cases hl : lang_lookup lf lang <;> simp

/-- One loop iteration preserves the edge invariant. -/
theorem process_step_edge_ok (st : FoldState) (r : WordRow × WordRow)
    (h : edge_ok st.edges) : edge_ok (process_step st r).edges := by
  unfold process_step
  dsimp only
  split
  · next hcond =>
    obtain ⟨hne, hseen⟩ := Bool.and_eq_true .. ▸ hcond
    constructor
    · rw [List.nodup_append]
      refine ⟨h.1, List.nodup_singleton _, ?_⟩
      intro e he he'
      rcases List.mem_singleton.mp he' with rfl
      have hcontra : edge_seen st.edges (make_node_id r.1.lexeme r.1.lang)
          (make_node_id r.2.lexeme r.2.lang) = true := by
        unfold edge_seen
        exact List.any_eq_true.mpr ⟨_, he, by simp⟩
      simp [hcontra] at hseen
    · intro e he
      rcases List.mem_append.mp he with he | he
      · exact h.2 e he
      · rcases List.mem_singleton.mp he with rfl
        intro hst
        rw [bne_iff_ne] at hne
        exact hne hst
  · exact h

/-- The whole record loop preserves the edge invariant. -/
theorem fold_edge_ok (recs : List (WordRow × WordRow)) :
    ∀ st : FoldState, edge_ok st.edges → edge_ok ((recs.foldl process_step st).edges) := by
  induction recs with
  | nil => intro st h; exact h
  | cons r recs ih =>
    intro st h
    exact ih _ (process_step_edge_ok st r h)

/-- The state of any traversal satisfies the edge invariant. -/
theorem etymology_state_edge_ok (store : Store) (start : WordRow) (depth : Int) :
    edge_ok (etymology_state store start depth).edges := by
  unfold etymology_state traversal_state
  split
  · exact fold_edge_ok _ _ ⟨List.nodup_nil, by simp⟩
  · exact ⟨List.nodup_nil, by simp⟩

/-- Inversion of a successful `fetch_etymology`: the word was nonempty, a
start entry was resolved, the traversal state has a nonempty edge list, and
the payload is built from that state. -/
theorem fetch_etymology_some (store : Store) (word : String) (depth : Int)
    (g : Graph) (h : fetch_etymology store word depth = some g) :
    (word == "") = false ∧ ∃ start, find_start_word store word = some start
      ∧ (etymology_state store start (normalize_depth depth)).edges.isEmpty = false
      ∧ g = ⟨nodes_of_state store (etymology_state store start (normalize_depth depth)),
             (etymology_state store start (normalize_depth depth)).edges⟩ := by
  by_cases hw : (word == "") = true
  · unfold fetch_etymology at h
    rw [if_pos hw] at h
    cases h
  · refine ⟨Bool.eq_false_iff.mpr hw, ?_⟩
    unfold fetch_etymology at h
    rw [if_neg hw] at h
    cases hf : find_start_word store word with
    | none => rw [hf] at h; cases h
    | some start =>
      rw [hf] at h
      have h2 : (if (etymology_state store start (normalize_depth depth)).edges.isEmpty
          then (none : Option Graph)
          else some ⟨nodes_of_state store (etymology_state store start (normalize_depth depth)),
                     (etymology_state store start (normalize_depth depth)).edges⟩) = some g := h
      refine ⟨start, rfl, ?_⟩
      by_cases he : (etymology_state store start (normalize_depth depth)).edges.isEmpty = true
      · rw [if_pos he] at h2
        cases h2
      · rw [if_neg he] at h2
        cases h2
        exact ⟨Bool.eq_false_iff.mpr he, rfl⟩

/-- Introduction of a successful `fetch_etymology` from its components. -/
theorem fetch_etymology_eq_some (store : Store) (word : String) (depth : Int)
    (start : WordRow) (hw : (word == "") = false)
    (hf : find_start_word store word = some start)
    (he : (etymology_state store start (normalize_depth depth)).edges.isEmpty = false) :
    fetch_etymology store word depth
      = some ⟨nodes_of_state store (etymology_state store start (normalize_depth depth)),
              (etymology_state store start (normalize_depth depth)).edges⟩ := by
  unfold fetch_etymology
  rw [if_neg (by simp [hw]), hf]
  show (if (etymology_state store start (normalize_depth depth)).edges.isEmpty
      then (none : Option Graph)
      else some ⟨nodes_of_state store (etymology_state store start (normalize_depth depth)),
                 (etymology_state store start (normalize_depth depth)).edges⟩)
    = some ⟨nodes_of_state store (etymology_state store start (normalize_depth depth)),
            (etymology_state store start (normalize_depth depth)).edges⟩
  rw [if_neg (by simp [he])]

/-- Claim C4 (amended): every node id in a graph response is the collapsed
key of the node's lexeme and language, and the edge list is attributed to
collapsed keys, deduplicated by key pair, and free of collapsed self-loops;
however the node list itself keeps one entry per underlying word id (see the
counterexample for the homograph case). -/
theorem fetch_etymology_collapsed_ids (store : Store) (word : String) (depth : Int) :
    (∀ n ∈ graph_nodes (fetch_etymology store word depth),
      n.id = make_node_id n.lexeme n.lang)
    ∧ (graph_edges (fetch_etymology store word depth)).Nodup
    ∧ ∀ e ∈ graph_edges (fetch_etymology store word depth), e.source ≠ e.target := by
  cases hres : fetch_etymology store word depth with
  | none => simp [graph_nodes, graph_edges]
  | some g =>
    obtain ⟨hw, start, hf, he, rfl⟩ := fetch_etymology_some store word depth g hres
    have hedge := etymology_state_edge_ok store start (normalize_depth depth)
    refine ⟨?_, hedge.1, hedge.2⟩
    intro n hn
    simp only [graph_nodes, nodes_of_state] at hn
    obtain ⟨p, _, rfl⟩ := List.mem_map.mp hn
    obtain ⟨h1, h2, h3⟩ := build_node_fields p.2.1 p.2.2.1 p.2.2.2 store.lang_families
      (get_definitions_for_lexemes store (english_lexemes_of
        (etymology_state store start (normalize_depth depth)).raw_nodes))
    rw [h1, h2, h3]

/-- Witness for the amended C4 on the homograph store: the collapsed-key id
property holds for a concrete member of the node list. -/
theorem fetch_etymology_collapsed_ids_witness :
    (⟨"beta|de", "beta", "de", some "x", "de", none, none⟩ : DisplayNode).id
      = make_node_id "beta" "de" := by
  have h := fetch_etymology_collapsed_ids homographStore "alpha" 5
  exact h.1 _ (by decide)

/-! Monotonicity of the traversal in the depth bound. -/

/-- Whatever is in a dict stays in it after `setdefault`. -/
theorem setdefault_mem {α : Type} (m : List (Int × α)) (k : Int) (v : α)
    (x : Int × α) (h : x ∈ m) : x ∈ setdefault m k v := by
  unfold setdefault
  split
  · exact h
  · exact List.mem_append_left _ h

/-- One loop iteration only extends the node dict and the edge list. -/
theorem process_step_mem (st : FoldState) (r : WordRow × WordRow) :
    (∀ x ∈ st.raw_nodes, x ∈ (process_step st r).raw_nodes)
    ∧ ∀ e ∈ st.edges, e ∈ (process_step st r).edges := by
  unfold process_step
  dsimp only
  split
  · exact ⟨fun x hx => setdefault_mem _ _ _ _ (setdefault_mem _ _ _ _ hx),
      fun e he => List.mem_append_left _ he⟩
  · exact ⟨fun x hx => setdefault_mem _ _ _ _ (setdefault_mem _ _ _ _ hx),
      fun e he => he⟩

/-- The whole loop only extends the node dict and the edge list. -/
theorem fold_mem (recs : List (WordRow × WordRow)) :
    ∀ st : FoldState,
      (∀ x ∈ st.raw_nodes, x ∈ ((recs.foldl process_step st).raw_nodes))
      ∧ ∀ e ∈ st.edges, e ∈ ((recs.foldl process_step st).edges) := by
  induction recs with
  | nil => exact fun st => ⟨fun x hx => hx, fun e he => he⟩
  | cons r recs ih =>
    intro st
    refine ⟨fun x hx => ?_, fun e he => ?_⟩
    · exact (ih (process_step st r)).1 x ((process_step_mem st r).1 x hx)
    · exact (ih (process_step st r)).2 e ((process_step_mem st r).2 e he)

/-- The CTE rows for one more level are the previous rows extended by one
more level. -/
theorem traversal_rows_succ (links : List LinkRow) (s : Int) (n : Nat) :
    traversal_rows links s (n + 1)
      = traversal_rows links s n ++ cte_levels links s n := by
  unfold traversal_rows
  rw [List.range_succ, List.flatMap_append]
  simp

/-- The words join distributes over appended row lists. -/
theorem record_rows_append (words : List WordRow) (a b : List (Int × Int)) :
    record_rows words (a ++ b) = record_rows words a ++ record_rows words b := by
  unfold record_rows
  rw [List.flatMap_append]

/-- The state of a deeper traversal continues the fold of the shallower
one. -/
theorem traversal_state_succ (store : Store) (start : WordRow) (n : Nat) :
    traversal_state store start (n + 1)
      = (record_rows store.words (cte_levels store.links start.ix n)).foldl
          process_step (traversal_state store start n) := by
  unfold traversal_state
  rw [traversal_rows_succ, record_rows_append, List.foldl_append]

/-- Node-dict entries and edges of a traversal survive one more level. -/
theorem traversal_state_mono (store : Store) (start : WordRow) (n : Nat) :
    (∀ x ∈ (traversal_state store start n).raw_nodes,
        x ∈ (traversal_state store start (n + 1)).raw_nodes)
    ∧ ∀ e ∈ (traversal_state store start n).edges,
        e ∈ (traversal_state store start (n + 1)).edges := by
  rw [traversal_state_succ]
  exact fold_mem _ _

/-- A dict containing a key is nonempty. -/
theorem dictContains_ne_nil {α : Type} (l : List (String × α)) (k : String)
    (h : dictContains l k = true) : l.isEmpty = false := by
  cases l with
  | nil => cases h
  | cons p rest => rfl

/-- Unfolding `mk_defs` over a cons cell. -/
theorem mk_defs_cons (r : DefRow) (rows : List DefRow) (L : List String) :
    mk_defs (r :: rows) L =
      if (L.map str_lower).contains (str_lower r.lexeme) && r.definition.isSome then
        (str_lower r.lexeme, defs_opt r.definition) :: mk_defs rows L
      else mk_defs rows L := by
  unfold mk_defs
  rw [List.filter_cons]
  split
  · rfl
  · rfl

/-- Prepending a pair with a different key changes neither membership nor
lookup at the key. -/
theorem dict_head_other {α : Type} (k' k : String) (hkb : (k' == k) = false)
    (d : List (String × α)) (v : α) :
    dictContains ((k', v) :: d) k = dictContains d k
    ∧ lookupLast ((k', v) :: d) k = lookupLast d k := by
  constructor
  · unfold dictContains
    simp [hkb]
  · show (match lookupLast d k with
      | some v' => some v'
      | none => if (k' == k) = true then some v else none) = lookupLast d k
    cases lookupLast d k with
    | none => simp [hkb]
    | some v' => rfl

/-- Membership checks and lookups at a key present in both requested lexeme
lists agree between the two dicts `mk_defs` builds. -/
theorem lookup_defs_congr (rows : List DefRow) (L1 L2 : List String) (k : String)
    (h1 : k ∈ L1.map str_lower) (h2 : k ∈ L2.map str_lower) :
    dictContains (mk_defs rows L1) k = dictContains (mk_defs rows L2) k
    ∧ lookupLast (mk_defs rows L1) k = lookupLast (mk_defs rows L2) k := by
  induction rows with
  | nil => exact ⟨rfl, rfl⟩
  | cons r rows ih =>
    rw [mk_defs_cons, mk_defs_cons]
    by_cases hk : str_lower r.lexeme = k
    · have hc1 : (L1.map str_lower).contains (str_lower r.lexeme) = true := by
        rw [hk]; simpa using h1
      have hc2 : (L2.map str_lower).contains (str_lower r.lexeme) = true := by
        rw [hk]; simpa using h2
      rw [hc1, hc2]
      cases hs : r.definition.isSome with
      | false =>
        rw [if_neg (by simp), if_neg (by simp)]
        exact ih
      | true =>
        rw [if_pos (by simp), if_pos (by simp)]
        constructor
        · unfold dictContains
          simp [hk]
        · simp only [lookupLast]
          rw [ih.2]
    · have hkb : (str_lower r.lexeme == k) = false := beq_eq_false_iff_ne.mpr hk
      constructor
      · split
        · split
          · rw [(dict_head_other _ _ hkb _ _).1, (dict_head_other _ _ hkb _ _).1]
            exact ih.1
          · rw [(dict_head_other _ _ hkb _ _).1]
            exact ih.1
        · split
          · rw [(dict_head_other _ _ hkb _ _).1]
            exact ih.1
          · exact ih.1
      · split
        · split
          · rw [(dict_head_other _ _ hkb _ _).2, (dict_head_other _ _ hkb _ _).2]
            exact ih.2
          · rw [(dict_head_other _ _ hkb _ _).2]
            exact ih.2
        · split
          · rw [(dict_head_other _ _ hkb _ _).2]
            exact ih.2
          · exact ih.2

/-- Membership checks and lookups at a lexeme present in both requested
lists agree between the corresponding definition dicts. -/
theorem get_defs_congr (store : Store) (L1 L2 : List String) (lex : String)
    (h1 : lex ∈ L1) (h2 : lex ∈ L2) :
    dictContains (get_definitions_for_lexemes store L1) (str_lower lex)
      = dictContains (get_definitions_for_lexemes store L2) (str_lower lex)
    ∧ lookupLast (get_definitions_for_lexemes store L1) (str_lower lex)
      = lookupLast (get_definitions_for_lexemes store L2) (str_lower lex) := by
  have e1 : L1.isEmpty = false := by
    cases L1 with
    | nil => cases h1
    | cons a l => rfl
  have e2 : L2.isEmpty = false := by
    cases L2 with
    | nil => cases h2
    | cons a l => rfl
  unfold get_definitions_for_lexemes
  rw [e1, e2]
  simp only [Bool.false_eq_true, if_false]
  cases store.defs_view with
  | none => exact ⟨rfl, rfl⟩
  | some rows =>
    exact lookup_defs_congr rows L1 L2 (str_lower lex)
      (List.mem_map_of_mem _ h1) (List.mem_map_of_mem _ h2)

/-- A non-English node is built identically from any two definition dicts. -/
theorem build_node_non_english (lexeme lang : String) (sense : Option String)
    (lf : List LangRow) (e1 e2 : List (String × Option String))
    (h : (lang == "en") = false) :
    build_node lexeme lang sense lf e1 = build_node lexeme lang sense lf e2 := by
  unfold build_node
  simp only [h, Bool.and_false, Bool.false_and, Bool.false_eq_true, if_false]

/-- Two definition dicts that agree on membership and lookup at the node's
lowered lexeme build the same node. -/
theorem build_node_congr (lexeme lang : String) (sense : Option String)
    (lf : List LangRow) (e1 e2 : List (String × Option String))
    (hc : dictContains e1 (str_lower lexeme) = dictContains e2 (str_lower lexeme))
    (hl : lookupLast e1 (str_lower lexeme) = lookupLast e2 (str_lower lexeme)) :
    build_node lexeme lang sense lf e1 = build_node lexeme lang sense lf e2 := by
  unfold build_node
  cases hd : dictContains e2 (str_lower lexeme) with
  | false =>
    rw [hd] at hc
    simp only [hc, hd, Bool.and_false, Bool.false_eq_true, if_false]
  | true =>
    rw [hd] at hc
    have n1 : e1.isEmpty = false := dictContains_ne_nil _ _ hc
    have n2 : e2.isEmpty = false := dictContains_ne_nil _ _ hd
    simp only [hc, hd, n1, n2, hl, Bool.not_false, Bool.true_and, Bool.and_true]

/-- An English entry of the node dict contributes its lexeme to the list of
English lexemes. -/
theorem mem_english (raw : List RawEntry) (p : RawEntry) (hp : p ∈ raw)
    (hen : p.2.2.1 = "en") : p.2.1 ∈ english_lexemes_of raw := by
  unfold english_lexemes_of
  refine List.mem_filterMap.mpr ⟨p.2, List.mem_map_of_mem _ hp, ?_⟩
  simp [hen]

/-- Every node of a state is a node of any state with a larger node dict. -/
theorem nodes_of_state_mem (store : Store) (s t : FoldState)
    (hmem : ∀ x ∈ s.raw_nodes, x ∈ t.raw_nodes) :
    ∀ n ∈ nodes_of_state store s, n ∈ nodes_of_state store t := by
  intro n hn
  unfold nodes_of_state at hn ⊢
  obtain ⟨p, hp, rfl⟩ := List.mem_map.mp hn
  refine List.mem_map.mpr ⟨p, hmem p hp, ?_⟩
  cases hen : (p.2.2.1 == "en") with
  | false =>
    exact (build_node_non_english _ _ _ _ _ _ hen).symm
  | true =>
    have hen' : p.2.2.1 = "en" := beq_iff_eq.mp hen
    have h1 : p.2.1 ∈ english_lexemes_of s.raw_nodes := mem_english _ _ hp hen'
    have h2 : p.2.1 ∈ english_lexemes_of t.raw_nodes := mem_english _ _ (hmem p hp) hen'
    have hcong := get_defs_congr store _ _ p.2.1 h1 h2
    exact (build_node_congr _ _ _ _ _ _ hcong.1 hcong.2).symm

/-- Claim C8: the node set of a traversal is contained in the node set of the
traversal one level deeper, for every store, word and depth. -/
theorem fetch_etymology_depth_mono (store : Store) (word : String) (d : Int) :
    graph_nodes (fetch_etymology store word d)
      ⊆ graph_nodes (fetch_etymology store word (d + 1)) := by
  intro n hn
  cases hres : fetch_etymology store word d with
  | none =>
    rw [hres] at hn
    simp [graph_nodes] at hn
  | some g =>
    rw [hres] at hn
    obtain ⟨hw, start, hf, he, hg⟩ := fetch_etymology_some store word d g hres
    subst hg
    have hd : 0 < d := by
      by_contra hle
      have : normalize_depth d = 0 := by
        unfold normalize_depth
        omega
      rw [this] at he
      have : etymology_state store start 0 = ⟨init_raw start, []⟩ := by
        unfold etymology_state
        rw [if_neg (by omega)]
      rw [this] at he
      cases he
    have hnd : normalize_depth d = d := by
      unfold normalize_depth
      omega
    have hnd1 : normalize_depth (d + 1) = d + 1 := by
      unfold normalize_depth
      omega
    have hst : etymology_state store start (normalize_depth d)
        = traversal_state store start d.toNat := by
      rw [hnd]
      unfold etymology_state
      rw [if_pos (by omega)]
    have hst1 : etymology_state store start (normalize_depth (d + 1))
        = traversal_state store start (d.toNat + 1) := by
      rw [hnd1]
      unfold etymology_state
      rw [if_pos (by omega)]
      have : (d + 1).toNat = d.toNat + 1 := by omega
      rw [this]
    have hmono := traversal_state_mono store start d.toNat
    have he1 : (etymology_state store start (normalize_depth (d + 1))).edges.isEmpty
        = false := by
      rw [hst1]
      rw [hst] at he
      rcases hc : (traversal_state store start d.toNat).edges with _ | ⟨e, es⟩
      · rw [hc] at he
        cases he
      · have : e ∈ (traversal_state store start (d.toNat + 1)).edges :=
          hmono.2 e (by rw [hc]; exact List.mem_cons_self _ _)
        rcases hc1 : (traversal_state store start (d.toNat + 1)).edges with _ | ⟨e1, es1⟩
        · rw [hc1] at this
          cases this
        · rfl
    rw [fetch_etymology_eq_some store word (d + 1) start hw hf he1]
    simp only [graph_nodes] at hn ⊢
    rw [hst1]
    rw [hst] at hn
    exact nodes_of_state_mem store _ _ hmono.1 n hn

/-- Witness for C8 on the mother store: the root node of the depth-1 graph is
also a node of the depth-2 graph. -/
theorem fetch_etymology_depth_mono_witness :
    (⟨"mother|en", "mother", "en", some "A female parent", "English",
      some "Indo-European", some "Germanic"⟩ : DisplayNode)
      ∈ graph_nodes (fetch_etymology motherStore "mother" 2) :=
  fetch_etymology_depth_mono motherStore "mother" 1 (by decide)

/-! Shape of the search result: grouping and emission. -/

/-- Rewriting a group in place keeps the key list. -/
theorem append_group_map_keys (acc : List (String × List (Option String × Option String)))
    (k : String) (v : Option String × Option String) :
    ((acc.map (fun g => if g.1 == k then (g.1, g.2 ++ [v]) else g)).map (fun g => g.1))
      = acc.map (fun g => g.1) := by
  rw [List.map_map]
  refine List.map_congr_left ?_
  intro g _
  show (if g.1 == k then (g.1, g.2 ++ [v]) else g).1 = g.1
  split
  · rfl
  · rfl

/-- `append_group` preserves the no-duplicate-keys invariant. -/
theorem append_group_keys_nodup (acc : List (String × List (Option String × Option String)))
    (k : String) (v : Option String × Option String)
    (h : (acc.map (fun g => g.1)).Nodup) :
    ((append_group acc k v).map (fun g => g.1)).Nodup := by
  unfold append_group
  split
  · rw [append_group_map_keys]
    exact h
  · next hany =>
    rw [List.map_append, List.nodup_append]
    refine ⟨h, by simp, ?_⟩
    intro a ha hb
    simp only [List.map_cons, List.map_nil, List.mem_singleton] at hb
    obtain ⟨g, hg, hgk⟩ := List.mem_map.mp ha
    have hak : acc.any (fun x => x.1 == k) = true :=
      List.any_eq_true.mpr ⟨g, hg, beq_iff_eq.mpr (hgk.trans hb)⟩
    exact hany hak

/-- With unique keys, `find?` at the key of a member returns exactly that
member. -/
theorem find_eq_of_mem_nodup (acc : List (String × List (Option String × Option String)))
    (g : String × List (Option String × Option String))
    (hnd : (acc.map (fun x => x.1)).Nodup) (hg : g ∈ acc) :
    acc.find? (fun x => x.1 == g.1) = some g := by
  induction acc with
  | nil => cases hg
  | cons a l ih =>
    rcases List.mem_cons.mp hg with rfl | hg
    · rw [List.find?_cons]
      simp
    · have hnd' := hnd
      rw [List.map_cons, List.nodup_cons] at hnd'
      have hne : (a.1 == g.1) = false := by
        refine beq_eq_false_iff_ne.mpr ?_
        intro hcontra
        exact hnd'.1 (hcontra ▸ List.mem_map_of_mem _ hg)
      rw [List.find?_cons, hne]
      exact ih hnd'.2 hg
/-- Effect of `append_group` on the accumulated entries of every key. -/
theorem group_entry_append (acc : List (String × List (Option String × Option String)))
    (k : String) (v : Option String × Option String) (k' : String) :
    group_entry (append_group acc k v) k'
      = group_entry acc k' ++ (if k == k' then [v] else []) := by
  unfold append_group
  split
  · next hany =>
    unfold group_entry
    rw [List.find?_map]
    have hcomp : ((fun (g : String × List (Option String × Option String)) => g.1 == k')
        ∘ (fun (g : String × List (Option String × Option String)) =>
            if g.1 == k then (g.1, g.2 ++ [v]) else g))
        = (fun (g : String × List (Option String × Option String)) => g.1 == k') := by
      funext g
      show ((if g.1 == k then (g.1, g.2 ++ [v]) else g).1 == k') = (g.1 == k')
      split
      · rfl
      · rfl
    rw [hcomp]
    rcases hfind : acc.find? (fun g => g.1 == k') with _ | g1 <;> rw [hfind]
    · by_cases hkk : (k == k') = true
      · obtain ⟨g0, hg0, hp0⟩ := List.any_eq_true.mp hany
        have hsome : (acc.find? (fun g => g.1 == k')).isSome = true := by
          refine List.find?_isSome.mpr ⟨g0, hg0, ?_⟩
          rw [← beq_iff_eq.mp hkk]
          exact hp0
        rw [hfind] at hsome
        cases hsome
      · rw [Option.map_none', Bool.eq_false_iff.mpr hkk, if_neg (by simp)]
        simp
    · have hp1 : (g1.1 == k') = true := by
        have := List.find?_some hfind
        simpa using this
      rw [Option.map_some']
      by_cases hkk : (k == k') = true
      · have hp1k : (g1.1 == k) = true := by
          rw [beq_iff_eq.mp hkk]
          exact hp1
        rw [if_pos hp1k, if_pos hkk]
      · have hne : (g1.1 == k) = false := by
          refine beq_eq_false_iff_ne.mpr fun hc => ?_
          have : (k == k') = true := by
            rw [← hc]
            exact hp1
          rw [this] at hkk
          exact hkk rfl
        rw [if_neg (by simp [hne]), Bool.eq_false_iff.mpr hkk, if_neg (by simp)]
        simp
  · next hany =>
    unfold group_entry
    rw [List.find?_append]
    rcases hfind : acc.find? (fun g => g.1 == k') with _ | g1
    · have hsingle : List.find? (fun (g : String × List (Option String × Option String)) =>
          g.1 == k') [(k, [v])] = if (k == k') = true then some (k, [v]) else none := by
        cases hkk : (k == k') with
        | true => simp [List.find?_cons, hkk]
        | false => simp [List.find?_cons, hkk]
      rw [hfind, hsingle]
      by_cases hkk : (k == k') = true
      · rw [if_pos hkk, if_pos hkk]
        rfl
      · rw [if_neg hkk, if_neg hkk]
        rfl
    · rw [hfind]
      have hp1 : (g1.1 == k') = true := by
        have := List.find?_some hfind
        simpa using this
      by_cases hkk : (k == k') = true
      · have hcontra : acc.any (fun g => g.1 == k) = true := by
          refine List.any_eq_true.mpr ⟨g1, List.mem_of_find?_eq_some hfind, ?_⟩
          rw [beq_iff_eq.mp hkk]
          exact hp1
        exact absurd hcontra hany
      · rw [Bool.eq_false_iff.mpr hkk, if_neg (by simp)]
        simp [Option.or]

/-- Keys of the grouping fold stay duplicate-free. -/
theorem group_fold_keys_nodup (rows : List SQLSearchRow) :
    ∀ acc, ((acc.map (fun g => g.1)).Nodup) →
      (((rows.foldl (fun a r => append_group a r.lexeme (r.sense, r.definition)) acc).map
        (fun g => g.1)).Nodup) := by
  induction rows with
  | nil => exact fun acc h => h
  | cons r rows ih =>
    intro acc h
    rw [List.foldl_cons]
    exact ih _ (append_group_keys_nodup acc r.lexeme (r.sense, r.definition) h)

/-- The grouping fold appends exactly the matching rows to each key's
entries. -/
theorem group_fold_entry (rows : List SQLSearchRow) :
    ∀ acc, ((acc.map (fun g => g.1)).Nodup) → ∀ k,
      group_entry (rows.foldl (fun a r => append_group a r.lexeme (r.sense, r.definition)) acc) k
        = group_entry acc k
          ++ (rows.filter (fun r => r.lexeme == k)).map (fun r => (r.sense, r.definition)) := by
  induction rows with
  | nil =>
    intro acc h k
    simp
  | cons r rows ih =>
    intro acc h k
    rw [List.foldl_cons,
      ih _ (append_group_keys_nodup acc r.lexeme (r.sense, r.definition) h) k,
      group_entry_append, List.filter_cons]
    by_cases hk : (r.lexeme == k) = true
    · rw [if_pos hk, if_pos hk, List.map_cons, List.append_assoc]
      rfl
    · rw [if_neg hk, if_neg hk, List.append_nil]

/-- The key list of the grouping of any row list is duplicate-free. -/
theorem group_lexemes_keys_nodup (rows : List SQLSearchRow) :
    ((group_lexemes rows).map (fun g => g.1)).Nodup :=
  group_fold_keys_nodup rows [] (by simp)

/-- Every group of `group_lexemes` holds exactly the `(sense, definition)`
pairs of the rows with its lexeme, in row order. -/
theorem group_lexemes_entries (rows : List SQLSearchRow)
    (g : String × List (Option String × Option String)) (hg : g ∈ group_lexemes rows) :
    g.2 = (rows.filter (fun r => r.lexeme == g.1)).map (fun r => (r.sense, r.definition)) := by
  have hnd := group_lexemes_keys_nodup rows
  have hfind := find_eq_of_mem_nodup _ g hnd hg
  have hentry : group_entry (group_lexemes rows) g.1 = g.2 := by
    unfold group_entry
    rw [hfind]
  have hspec := group_fold_entry rows [] (by simp) g.1
  unfold group_lexemes at hentry
  rw [hspec] at hentry
  rw [← hentry]
  rfl

/-- Truncating the result of the emission loop to the limit agrees with
truncating the flat concatenation of all per-group rows. -/
theorem emit_fold_take (limit : Nat)
    (gs : List (String × List (Option String × Option String))) :
    ∀ acc, (emit_fold limit acc gs).take limit
      = (acc ++ gs.flatMap (fun g => group_rows g.1 g.2)).take limit := by
  induction gs with
  | nil =>
    intro acc
    simp [emit_fold]
  | cons g gs ih =>
    intro acc
    show ((let acc' := acc ++ group_rows g.1 g.2;
        if limit ≤ acc'.length then acc' else emit_fold limit acc' gs)).take limit = _
    dsimp only
    by_cases hl : limit ≤ (acc ++ group_rows g.1 g.2).length
    · rw [if_pos hl, List.flatMap_cons, ← List.append_assoc,
        List.take_append_of_le_length hl]
    · rw [if_neg hl, ih, List.flatMap_cons, List.append_assoc]

/-- Claim C6 (amended): for every query of length at least 2 against a store
whose definitions view exists, the search result is the concatenation of the
per-lexeme rows truncated to the limit, rows are grouped by exact lexeme
(each lexeme forming exactly one group holding exactly its rows), and each
group emits one row per entry whose sense is useful, or a single
external-definition fallback row when none is — so duplicated identical
senses of homograph entries yield duplicated rows. -/
theorem search_words_per_entry (store : Store) (q : String) (limit : Nat)
    (defs : List DefRow) (hview : store.defs_view = some defs)
    (hlen : 2 ≤ q.length) :
    search_words store q limit
      = some (((group_lexemes (search_sql_rows store defs q)).flatMap
          (fun g => group_rows g.1 g.2)).take limit)
    ∧ ((group_lexemes (search_sql_rows store defs q)).map (fun g => g.1)).Nodup
    ∧ ∀ g ∈ group_lexemes (search_sql_rows store defs q),
        g.2 = ((search_sql_rows store defs q).filter (fun r => r.lexeme == g.1)).map
          (fun r => (r.sense, r.definition)) := by
  refine ⟨?_, group_lexemes_keys_nodup _, fun g hg => group_lexemes_entries _ g hg⟩
  have hq : (q == "" || decide (q.length < 2)) = false := by
    have hne : q ≠ "" := by
      intro hc
      rw [hc] at hlen
      cases hlen
    simp [hne]
    omega
  unfold search_words
  rw [if_neg (by simp [hq]), hview]
  show some ((emit_fold limit [] (group_lexemes (search_sql_rows store defs q))).take limit)
    = some (((group_lexemes (search_sql_rows store defs q)).flatMap
        (fun g => group_rows g.1 g.2)).take limit)
  rw [emit_fold_take, List.nil_append]

/-- Witness for the amended C6 on the dog store: the concrete search result
computed through the grouping characterization. -/
theorem search_words_per_entry_witness :
    search_words dogStore "do" 10
      = some [⟨"dog", some "canine"⟩, ⟨"dog", some "canine"⟩] := by
  have h := search_words_per_entry dogStore "do" 10 [] rfl (by decide)
  exact h.1.trans (by decide)
